import Mathlib

/-!
Shallow embedding of the ObsidiAnswer incremental semantic index and
retrieval engine (`src/index-manager.ts`, `src/rag-engine.ts`,
`src/settings.ts`), together with theorems settling the specification
claims about it.

Modelling conventions:
* A JavaScript string is a `List Char` (`JStr`); `String` is kept for
  identifier-like fields (paths, model names, chunk ids) that are only
  ever compared for equality or concatenated.
* A JavaScript object used as a dictionary (`Record<string, T>`) is an
  association list `List (String × T)` in insertion order; `delete`
  removes the entry, assignment overwrites in place or appends.
* JavaScript numbers are `Nat` where the code only stores sizes, counts
  and timestamps, `Int` for the 32-bit hash arithmetic, and `ℚ` for
  similarity scores, thresholds and embedding coordinates.  `Math.sqrt`
  is an explicit function parameter `sqrt : ℚ → ℚ` of the search
  pipeline, since none of the verified properties depend on its values.
* Asynchronous I/O (reading the vault, persisting the index) is made
  explicit: file stat/content arrive as arguments, persistence is the
  pure `saveIndexPure` (which performs the code's `updatedAt` stamp),
  and `Date.now()` is an explicit `now : Nat` argument.
-/

namespace ObsidiAnswer

/-- JavaScript strings modelled as lists of characters. -/
abbrev JStr := List Char

/-- Model of `String.prototype.trim`: strip whitespace from both ends. -/
def jsTrim (l : JStr) : JStr :=
  ((l.dropWhile Char.isWhitespace).reverse.dropWhile Char.isWhitespace).reverse

/-- Association-list model of a JavaScript `Record<string, α>` object,
kept in insertion order. -/
abbrev Record (α : Type) := List (String × α)

/-- Model of `obj[k]` lookup (`undefined` becomes `none`). -/
def Record.get {α : Type} (r : Record α) (k : String) : Option α :=
  (r.find? (fun p => p.1 == k)).map (·.2)

/-- Model of `obj[k] = v`: overwrite in place if the key exists,
otherwise append at the end (JS objects preserve insertion order). -/
def Record.set {α : Type} (r : Record α) (k : String) (v : α) : Record α :=
  if r.any (fun p => p.1 == k) then
    r.map (fun p => if p.1 == k then (k, v) else p)
  else
    r ++ [(k, v)]

/-- Model of `delete obj[k]`. -/
def Record.erase {α : Type} (r : Record α) (k : String) : Record α :=
  r.filter (fun p => !(p.1 == k))

/-- Model of `Object.values(obj)`. -/
def Record.values {α : Type} (r : Record α) : List α :=
  r.map (·.2)

/-- Model of `FileVersion` from `index-manager.ts`: identity plus fingerprint of
one document. -/
structure FileVersion where
  path : String
  mtime : Nat
  size : Nat
  hash : String
deriving DecidableEq, Repr

/-- The `metadata` field of a `DocumentChunk` (`index-manager.ts`). -/
structure ChunkMetadata where
  file : String
  path : String
  tags : List JStr
  frontmatter : Record JStr
  chunkIndex : Nat
  totalChunks : Nat
  startOffset : Option Nat := none
  endOffset : Option Nat := none
deriving DecidableEq, Repr

/-- Model of `DocumentChunk` from `index-manager.ts`. -/
structure DocumentChunk where
  id : String
  fileVersion : FileVersion
  content : JStr
  metadata : ChunkMetadata
  embedding : Option (List ℚ) := none
  embeddingModel : Option String := none
  createdAt : Nat
  updatedAt : Nat
deriving DecidableEq, Repr

/-- The `settings` block stored inside a `VaultIndex`. -/
structure IndexSettings where
  embeddingModel : String
  chunkSize : Nat
  chunkOverlap : Nat
deriving DecidableEq, Repr

/-- The `stats` block of a `VaultIndex`. -/
structure IndexStats where
  totalFiles : Nat
  totalChunks : Nat
  totalEmbeddings : Nat
  lastFullIndex : Nat
deriving DecidableEq, Repr

/-- Model of `VaultIndex` from `index-manager.ts`: the aggregate root of the
persistent index. -/
structure VaultIndex where
  version : String
  createdAt : Nat
  updatedAt : Nat
  settings : IndexSettings
  files : Record FileVersion
  chunks : Record DocumentChunk
  stats : IndexStats
deriving DecidableEq, Repr

/-- Model of `RAGSettings` from `settings.ts` (multi-provider revision, the one
the engine under verification imports). -/
structure RAGSettings where
  provider : String
  openaiApiKey : String
  llamaBaseUrl : String
  llamaApiKey : String
  embeddingModel : String
  chatModel : String
  maxTokens : Nat
  temperature : ℚ
  maxResults : Nat
  similarityThreshold : ℚ
  autoIndex : Bool
  autoIndexOnChange : Bool
  debounceDelay : Nat
  includeFilePaths : Bool
  indexPath : String
deriving DecidableEq, Repr

/-- Model of `IndexManager.createEmptyIndex`. -/
def createEmptyIndex (s : RAGSettings) (now : Nat) : VaultIndex :=
  { version := "1.0.0"
    createdAt := now
    updatedAt := now
    settings := { embeddingModel := s.embeddingModel, chunkSize := 1000, chunkOverlap := 200 }
    files := []
    chunks := []
    stats := { totalFiles := 0, totalChunks := 0, totalEmbeddings := 0, lastFullIndex := 0 } }

/-- Pure effect of `IndexManager.saveIndex` on the in-memory index: the
persisted bytes are external I/O, the only state change is the
`updatedAt` stamp. -/
def saveIndexPure (now : Nat) (idx : VaultIndex) : VaultIndex :=
  { idx with updatedAt := now }

/-- Model of `IndexManager.updateStats`: recompute the three derived counters. -/
def updateStats (idx : VaultIndex) : VaultIndex :=
  { idx with stats :=
    { idx.stats with
      totalFiles := idx.files.length
      totalChunks := idx.chunks.length
      totalEmbeddings := ((Record.values idx.chunks).filter (fun c => c.embedding.isSome)).length } }

/-- Model of `IndexManager.rebuildIndex`: replace the index with an empty one and
stamp `lastFullIndex`. -/
def rebuildIndex (s : RAGSettings) (now : Nat) : VaultIndex :=
  let e := createEmptyIndex s now
  saveIndexPure now { e with stats := { e.stats with lastFullIndex := now } }

/-- Model of `IndexManager.validateIndex`: decide whether the freshly loaded
index must be rebuilt (format version mismatch, or embedding-model
mismatch while embeddings exist); otherwise overwrite the stored
settings with the current configuration. -/
def validateIndex (s : RAGSettings) (now : Nat) (idx0 : VaultIndex) : VaultIndex :=
  let needsRebuild0 : Bool := idx0.version != "1.0.0"
  let hasEmbeddings : Bool := decide (0 < idx0.stats.totalEmbeddings)
  let step : Bool × VaultIndex :=
    if hasEmbeddings && (idx0.settings.embeddingModel != s.embeddingModel) then
      (true, idx0)
    else if !hasEmbeddings then
      (needsRebuild0,
        { idx0 with settings := { idx0.settings with embeddingModel := s.embeddingModel } })
    else
      (needsRebuild0, idx0)
  if step.1 then
    rebuildIndex s now
  else
    { step.2 with settings :=
      { embeddingModel := s.embeddingModel, chunkSize := 1000, chunkOverlap := 200 } }

/-- Outcome of the persistence layer when `IndexManager.loadIndex`
runs: the index file is absent, unreadable/unparsable, or parses to a
stored `VaultIndex`. -/
inductive LoadAttempt where
  | missing : LoadAttempt
  | unreadable : LoadAttempt
  | parsed : VaultIndex → LoadAttempt

/-- Model of `IndexManager.loadIndex`: read the persisted index if present and
validate it; on a missing file create (and persist) an empty index; on
any read/parse error fall back to an empty index. -/
def loadIndex (s : RAGSettings) (now : Nat) : LoadAttempt → VaultIndex
  | .missing => saveIndexPure now (createEmptyIndex s now)
  | .unreadable => createEmptyIndex s now
  | .parsed idx => validateIndex s now idx

/-- One step of the rolling hash in `IndexManager.hashContent`:
`hash = ((hash << 5) - hash) + charCode; hash = hash & hash` with JS
32-bit signed wrap-around on `<< 5` and `& `. -/
def toInt32 (n : Int) : Int :=
  let m := n % 4294967296
  if m < 2147483648 then m else m - 4294967296

/-- Fold step of `IndexManager.hashContent`. -/
def hashStep (h : Int) (c : Char) : Int :=
  toInt32 (toInt32 (h * 32) - h + c.toNat)

/-- Model of JS `Number.prototype.toString(36)` for 32-bit integers. -/
def int32ToBase36 (n : Int) : String :=
  if n < 0 then "-" ++ ⟨Nat.toDigits 36 n.natAbs⟩ else ⟨Nat.toDigits 36 n.toNat⟩

/-- Model of `IndexManager.hashContent`: cheap non-cryptographic rolling hash. -/
def hashContent (content : JStr) : String :=
  int32ToBase36 (content.foldl hashStep 0)

/-- Model of `IndexManager.getFileVersion`: fresh fingerprint from the current
stat (`mtime`, `size`) and content of the document. -/
def getFileVersion (path : String) (mtime size : Nat) (content : JStr) : FileVersion :=
  { path := path, mtime := mtime, size := size, hash := hashContent content }

/-- Model of `IndexManager.isFileUpToDate`: the stored fingerprint exists and is
field-wise equal to the freshly computed one. -/
def isFileUpToDate (idx : VaultIndex) (path : String) (mtime size : Nat) (content : JStr) : Bool :=
  let currentVersion := getFileVersion path mtime size content
  match Record.get idx.files path with
  | none => false
  | some indexedVersion =>
    (indexedVersion.mtime == currentVersion.mtime) &&
    (indexedVersion.size == currentVersion.size) &&
    (indexedVersion.hash == currentVersion.hash)

/-- Model of `IndexManager.removeFileFromIndex`: delete the file entry, delete
every chunk whose `fileVersion.path` equals the path, recompute stats,
persist. -/
def removeFileFromIndex (idx : VaultIndex) (filePath : String) (now : Nat) : VaultIndex :=
  let files := Record.erase idx.files filePath
  let chunksToRemove := (idx.chunks.filter (fun p => p.2.fileVersion.path == filePath)).map (·.1)
  let chunks := chunksToRemove.foldl (fun m k => Record.erase m k) idx.chunks
  saveIndexPure now (updateStats { idx with files := files, chunks := chunks })

/-- Model of `IndexManager.addFileToIndex`: compute the fresh fingerprint,
remove the old entry and chunks, store the fingerprint, stamp and
insert every incoming chunk, recompute stats, persist. -/
def addFileToIndex (idx : VaultIndex) (path : String) (mtime size : Nat) (content : JStr)
    (chunks : List DocumentChunk) (now : Nat) : VaultIndex :=
  let fileVersion := getFileVersion path mtime size content
  let idx1 := removeFileFromIndex idx path now
  let idx2 := { idx1 with files := Record.set idx1.files path fileVersion }
  let insertChunk := fun (m : Record DocumentChunk) (c : DocumentChunk) =>
    Record.set m c.id { c with fileVersion := fileVersion, updatedAt := now }
  let idx3 := { idx2 with chunks := chunks.foldl insertChunk idx2.chunks }
  saveIndexPure now (updateStats idx3)

/-- Model of `IndexManager.updateChunkEmbedding`: attach the embedding and the
active embedding-model name to an existing chunk; silently do nothing
when the chunk id is unknown. -/
def updateChunkEmbedding (s : RAGSettings) (idx : VaultIndex) (chunkId : String)
    (embedding : List ℚ) (now : Nat) : VaultIndex :=
  match Record.get idx.chunks chunkId with
  | some c =>
    let c1 := { c with embedding := some embedding, embeddingModel := some s.embeddingModel,
                       updatedAt := now }
    saveIndexPure now (updateStats { idx with chunks := Record.set idx.chunks chunkId c1 })
  | none => idx

/-- Model of `IndexManager.getChunksWithEmbeddings`: every stored chunk whose
`embedding` field is set (JS truthiness: any array, even empty, counts). -/
def getChunksWithEmbeddings (idx : VaultIndex) : List DocumentChunk :=
  (Record.values idx.chunks).filter (fun c => c.embedding.isSome)

/-- Derived-stats consistency: the three counters of `stats` agree with
the actual contents of the `files` and `chunks` maps. -/
def statsConsistent (idx : VaultIndex) : Prop :=
  idx.stats.totalFiles = idx.files.length ∧
  idx.stats.totalChunks = idx.chunks.length ∧
  idx.stats.totalEmbeddings =
    ((Record.values idx.chunks).filter (fun c => c.embedding.isSome)).length

instance (idx : VaultIndex) : Decidable (statsConsistent idx) := by
  unfold statsConsistent; infer_instance

/-- Concrete settings used by witnesses and counterexamples, mirroring
`DEFAULT_SETTINGS` of `settings.ts` (the two file-watching fields are
not given defaults there; they are inert for every property below). -/
def sampleSettings : RAGSettings :=
  { provider := "openai"
    openaiApiKey := ""
    llamaBaseUrl := ""
    llamaApiKey := ""
    embeddingModel := "text-embedding-3-small"
    chatModel := "gpt-4o"
    maxTokens := 1000
    temperature := 7/10
    maxResults := 5
    similarityThreshold := 3/10
    autoIndex := true
    autoIndexOnChange := true
    debounceDelay := 2000
    includeFilePaths := true
    indexPath := ".obsidian/plugins/obsidianswer/index" }

/-- Concrete stored index with one file entry, no chunks, no
embeddings, and an incompatible format version. -/
def staleVersionIndex : VaultIndex :=
  { version := "0.9.0"
    createdAt := 0
    updatedAt := 0
    settings := { embeddingModel := "text-embedding-3-small", chunkSize := 1000, chunkOverlap := 200 }
    files := [("note.md", { path := "note.md", mtime := 1, size := 2, hash := "h" })]
    chunks := []
    stats := { totalFiles := 1, totalChunks := 0, totalEmbeddings := 0, lastFullIndex := 0 } }

/-- Character class of the tag regex `/#[\w-]+/g` in `chunkDocument`
(`\w` is the ASCII word class). -/
def isTagChar (c : Char) : Bool := c.isAlphanum || c == '_' || c == '-'

/-- Model of `bodyContent.matchAll(/#[\w-]+/g)`: scan left to right and
collect each maximal `#`-prefixed non-empty run of word characters or
hyphens.  (The regex engine resumes after the consumed match, but a
consumed run never contains `#`, so resuming at the next character
finds exactly the same matches.) -/
def extractTags : JStr → List JStr
  | [] => []
  | c :: rest =>
    if c == '#' then
      let tag := rest.takeWhile isTagChar
      if tag.isEmpty then extractTags rest
      else ('#' :: tag) :: extractTags rest
    else extractTags rest

/-- Index of the first occurrence of the (non-empty) pattern `pat` in a
string, as `String.prototype.indexOf` and the regex engine's scan
compute it. -/
def findSub (pat : JStr) : JStr → Option Nat
  | [] => none
  | c :: rest =>
    if pat.isPrefixOf (c :: rest) then some 0
    else (findSub pat rest).map (· + 1)

/-- Scanner behind `String.prototype.split` for a non-empty separator:
cut at each non-overlapping occurrence, scanning left to right; `acc`
holds the reversed piece currently being read.  `fuel` only forces
structural termination: every recursive call shortens the string by at
least one character, so starting with `fuel = l.length + 1` the
fuel-exhausted arm is unreachable. -/
def splitOnSubAux (sep : JStr) : Nat → JStr → JStr → List JStr
  | _, [], acc => [acc.reverse]
  | 0, l, acc => [acc.reverse ++ l]
  | fuel + 1, c :: rest, acc =>
    if sep.isPrefixOf (c :: rest) then
      acc.reverse :: splitOnSubAux sep fuel ((c :: rest).drop sep.length) []
    else
      splitOnSubAux sep fuel rest (c :: acc)

/-- Model of `String.prototype.split` for a non-empty separator. -/
def splitOnSub (sep : JStr) (l : JStr) : List JStr :=
  if sep = [] then [l] else splitOnSubAux sep (l.length + 1) l []

/-- Result of the frontmatter regex `/^---\n([\s\S]*?)\n---\n/` at the
start of the content: `some (yaml, body)` on a match, where `yaml` is
the lazily-shortest captured group and `body` is everything after the
match. -/
def matchFrontmatter (content : JStr) : Option (JStr × JStr) :=
  if ("---\n".data).isPrefixOf content then
    match findSub ("\n---\n".data) (content.drop 4) with
    | some j => some ((content.drop 4).take j, content.drop (4 + j + 5))
    | none => none
  else none

/-- Simple `key: value` parsing of the frontmatter block in
`chunkDocument`: split into lines, cut each at its first colon when
that colon sits at a positive index, trim both sides, store in the
frontmatter object (later duplicates overwrite); malformed lines are
skipped. -/
def parseFrontmatter (yaml : JStr) : Record JStr :=
  (splitOnSub ['\n'] yaml).foldl
    (fun acc line =>
      match findSub [':'] line with
      | some i =>
        if 0 < i then
          Record.set acc ⟨jsTrim (line.take i)⟩ (jsTrim (line.drop (i + 1)))
        else acc
      | none => acc)
    []

/-- Chunk draft as produced by `chunkDocument` (`Omit<DocumentChunk,
'fileVersion'>`). -/
structure ChunkDraft where
  id : String
  content : JStr
  metadata : ChunkMetadata
  createdAt : Nat
  updatedAt : Nat
deriving DecidableEq, Repr

/-- Chunk id template literal of `chunkDocument`. -/
def mkChunkId (path : String) (i : Nat) : String := path ++ ":" ++ toString i

/-- The greedy paragraph-accumulation loop of `chunkDocument` (the
`for (const paragraph of paragraphs)` loop plus the trailing flush of a
non-empty buffer). -/
def chunkLoop (path fname : String) (tags : List JStr) (fm : Record JStr) (now : Nat)
    (chunkSize : Nat) : List JStr → JStr → Nat → List ChunkDraft
  | [], currentChunk, chunkIndex =>
    if jsTrim currentChunk ≠ [] then
      [{ id := mkChunkId path chunkIndex
         content := jsTrim currentChunk
         metadata := { file := fname, path := path, tags := tags, frontmatter := fm,
                       chunkIndex := chunkIndex, totalChunks := 0 }
         createdAt := now
         updatedAt := now }]
    else []
  | paragraph :: ps, currentChunk, chunkIndex =>
    if chunkSize < currentChunk.length + paragraph.length ∧ 0 < currentChunk.length then
      { id := mkChunkId path chunkIndex
        content := jsTrim currentChunk
        metadata := { file := fname, path := path, tags := tags, frontmatter := fm,
                      chunkIndex := chunkIndex, totalChunks := 0 }
        createdAt := now
        updatedAt := now } ::
        chunkLoop path fname tags fm now chunkSize ps paragraph (chunkIndex + 1)
    else
      chunkLoop path fname tags fm now chunkSize ps
        (if currentChunk = [] then paragraph else currentChunk ++ '\n' :: '\n' :: paragraph)
        chunkIndex

/-- The paragraph list `chunkDocument` works on for a given body:
split on blank lines, keep the pieces with non-whitespace content. -/
def paragraphsOf (bodyContent : JStr) : List JStr :=
  (splitOnSub ('\n' :: '\n' :: []) bodyContent).filter (fun p => 0 < (jsTrim p).length)

/-- The body `chunkDocument` works on: the content minus a matched
leading frontmatter block. -/
def bodyOf (content : JStr) : JStr :=
  match matchFrontmatter content with
  | some (_, body) => body
  | none => content

/-- Model of `RAGEngine.chunkDocument`: strip and parse frontmatter, extract
tags, split the body into paragraphs on blank lines, greedily
accumulate paragraphs into chunks, flush the trailing buffer, then
stamp every chunk with the shared `totalChunks` (the fallback
re-assignments of `id`, `createdAt` and `updatedAt` fire only on falsy
values). -/
def chunkDocument (content : JStr) (path fname : String) (now : Nat) : List ChunkDraft :=
  let frontmatter : Record JStr :=
    match matchFrontmatter content with
    | some (yaml, _) => parseFrontmatter yaml
    | none => []
  let bodyContent := bodyOf content
  let tags := extractTags bodyContent
  let paragraphs := paragraphsOf bodyContent
  let chunks := chunkLoop path fname tags frontmatter now 1000 paragraphs [] 0
  chunks.mapIdx (fun i c =>
    let c1 := { c with metadata := { c.metadata with totalChunks := chunks.length } }
    let c2 := if c1.id = "" then { c1 with id := mkChunkId path i } else c1
    let c3 := if c2.createdAt = 0 then { c2 with createdAt := now } else c2
    if c3.updatedAt = 0 then { c3 with updatedAt := now } else c3)

/-- Model of `RAGEngine.indexFile`'s conversion of a chunk draft to a full
`DocumentChunk` with the placeholder file version (the real fingerprint
is attached by `addFileToIndex`). -/
def draftToDocumentChunk (path : String) (c : ChunkDraft) : DocumentChunk :=
  { id := c.id
    fileVersion := { path := path, mtime := 0, size := 0, hash := "" }
    content := c.content
    metadata := c.metadata
    embedding := none
    embeddingModel := none
    createdAt := c.createdAt
    updatedAt := c.updatedAt }

/-- Model of `SearchResult` from `rag-engine.ts`. -/
structure SearchResult where
  chunk : DocumentChunk
  similarity : ℚ
deriving DecidableEq, Repr

/-- Model of `RAGEngine.cosineSimilarity`, with `Math.sqrt` passed explicitly as
`sqrt`; every verified property below holds for an arbitrary `sqrt`.
In ℚ a division by a zero magnitude yields 0 where JS produces NaN —
the degenerate all-zero-vector case the spec flags as undefined. -/
def cosineSimilarity (sqrt : ℚ → ℚ) (a b : List ℚ) : ℚ :=
  let dotProduct := (a.zipWith (· * ·) b).sum
  let magnitudeA := sqrt (a.map (fun v => v * v)).sum
  let magnitudeB := sqrt (b.map (fun v => v * v)).sum
  dotProduct / (magnitudeA * magnitudeB)

/-- The candidate-accumulation loop of `RAGEngine.search`: for every
chunk with an embedding, compute the similarity, boost it by 1.2 when
the chunk belongs to the context file, and keep it when the (possibly
boosted) value reaches the threshold. -/
def searchCandidates (sqrt : ℚ → ℚ) (s : RAGSettings) (idx : VaultIndex)
    (queryEmbedding : List ℚ) (contextPath : Option String) : List SearchResult :=
  (getChunksWithEmbeddings idx).filterMap (fun chunk =>
    match chunk.embedding with
    | none => none
    | some e =>
      let isContextFile := contextPath == some chunk.metadata.path
      let similarity := cosineSimilarity sqrt queryEmbedding e
      let adjustedSimilarity := if isContextFile then similarity * (6/5) else similarity
      if s.similarityThreshold ≤ adjustedSimilarity then
        some { chunk := chunk, similarity := adjustedSimilarity }
      else none)

/-- Stable insertion of an element into an already sorted list: the
element lands before every element it compares `le` to, in particular
before later-inserted elements with an equal key. -/
def insertSorted {α : Type} (le : α → α → Bool) (a : α) : List α → List α
  | [] => [a]
  | b :: l => if le a b then a :: b :: l else b :: insertSorted le a l

/-- Model of `Array.prototype.sort(cmp)`: ECMAScript guarantees a
stable sort consistent with the comparator, and stable insertion sort
realises exactly that contract (elements comparing equal keep their
original order). -/
def stableSort {α : Type} (le : α → α → Bool) (l : List α) : List α :=
  l.foldr (insertSorted le) []

/-- Model of `RAGEngine.search`: throw when no chunk has an embedding (before
the query-embedding provider call), otherwise score every embedded
chunk, sort by descending similarity — the comparator
`(a, b) => b.similarity - a.similarity` orders `a` before `b` exactly
when `b.similarity ≤ a.similarity` — and keep the first `maxResults`. -/
def search (sqrt : ℚ → ℚ) (s : RAGSettings) (idx : VaultIndex) (queryEmbedding : List ℚ)
    (contextPath : Option String) : Except String (List SearchResult) :=
  if (getChunksWithEmbeddings idx).length = 0 then
    Except.error "No embeddings found. Please run indexing first."
  else
    Except.ok ((stableSort (fun a b => decide (b.similarity ≤ a.similarity))
      (searchCandidates sqrt s idx queryEmbedding contextPath)).take s.maxResults)

/-- Concrete document made of two 500-character paragraphs separated by
a blank line. -/
def bigTwoParagraphDoc : JStr :=
  List.replicate 500 'a' ++ '\n' :: '\n' :: List.replicate 500 'b'

/-- The chunk draft the chunker produces for the 8-character document
used by concrete witnesses. -/
def sampleDraft : ChunkDraft :=
  { id := "f.md:0"
    content := "aaa\n\nbbb".data
    metadata :=
      { file := "f.md", path := "f.md", tags := [], frontmatter := [],
        chunkIndex := 0, totalChunks := 1 }
    createdAt := 7
    updatedAt := 7 }

/-- Concrete chunk constructor used by witnesses and counterexamples. -/
def embChunk (id path : String) (e : Option (List ℚ)) (model : Option String) : DocumentChunk :=
  { id := id
    fileVersion := { path := path, mtime := 1, size := 1, hash := "h" }
    content := ['x']
    metadata := { file := path, path := path, tags := [], frontmatter := [],
                  chunkIndex := 0, totalChunks := 1 }
    embedding := e
    embeddingModel := model
    createdAt := 0
    updatedAt := 0 }

/-- Concrete index holding the given chunks, used by witnesses and
counterexamples. -/
def mkCorpus (cs : List DocumentChunk) : VaultIndex :=
  { version := "1.0.0"
    createdAt := 0
    updatedAt := 0
    settings := { embeddingModel := "text-embedding-3-small", chunkSize := 1000,
                  chunkOverlap := 200 }
    files := cs.map (fun c => (c.metadata.path, c.fileVersion))
    chunks := cs.map (fun c => (c.id, c))
    stats := { totalFiles := cs.length, totalChunks := cs.length,
               totalEmbeddings := cs.length, lastFullIndex := 0 } }

instance {ε α : Type} [DecidableEq ε] [DecidableEq α] : DecidableEq (Except ε α) := fun x y =>
  match x, y with
  | .error a, .error b =>
    if h : a = b then .isTrue (congrArg Except.error h)
    else .isFalse (fun he => h (Except.error.inj he))
  | .ok a, .ok b =>
    if h : a = b then .isTrue (congrArg Except.ok h)
    else .isFalse (fun he => h (Except.ok.inj he))
  | .error _, .ok _ => .isFalse (fun he => Except.noConfusion he)
  | .ok _, .error _ => .isFalse (fun he => Except.noConfusion he)

/-- Concrete three-chunk corpus: two chunks score above the 0.3
threshold against the query `[1, 0]`, one scores 0. -/
def corpus6 : VaultIndex := mkCorpus
  [embChunk "a.md:0" "a.md" (some [1, 0]) (some "text-embedding-3-small"),
   embChunk "b.md:0" "b.md" (some [3/5, 4/5]) (some "text-embedding-3-small"),
   embChunk "c.md:0" "c.md" (some [0, 1]) (some "text-embedding-3-small")]

/-- The results `search` returns on `corpus6` for the query `[1, 0]`. -/
def searchResults6 : List SearchResult :=
  [{ chunk := embChunk "a.md:0" "a.md" (some [1, 0]) (some "text-embedding-3-small"),
     similarity := 1 },
   { chunk := embChunk "b.md:0" "b.md" (some [3/5, 4/5]) (some "text-embedding-3-small"),
     similarity := 3/5 }]

/-- Settings with the similarity threshold set to 0 — the lowest value
of the settings slider (`setLimits(0, 1, 0.05)`). -/
def thresholdZeroSettings : RAGSettings := { sampleSettings with similarityThreshold := 0 }

/-- Two chunks orthogonal to the query `[1, 0]` (raw similarity 0); the
second one belongs to the context file. -/
def corpus8 : VaultIndex := mkCorpus
  [embChunk "a.md:0" "a.md" (some [0, 1]) (some "text-embedding-3-small"),
   embChunk "b.md:0" "b.md" (some [0, 1]) (some "text-embedding-3-small")]

/-- Two chunks equal to the query `[1, 0]` (raw similarity 1); the
second one belongs to the context file. -/
def corpusBoost : VaultIndex := mkCorpus
  [embChunk "a.md:0" "a.md" (some [1, 0]) (some "text-embedding-3-small"),
   embChunk "b.md:0" "b.md" (some [1, 0]) (some "text-embedding-3-small")]

/-- The results `search` returns on `corpusBoost` for the query
`[1, 0]` with context file `b.md`: the boosted context chunk first. -/
def searchResultsBoost : List SearchResult :=
  [{ chunk := embChunk "b.md:0" "b.md" (some [1, 0]) (some "text-embedding-3-small"),
     similarity := 6/5 },
   { chunk := embChunk "a.md:0" "a.md" (some [1, 0]) (some "text-embedding-3-small"),
     similarity := 1 }]

/-- Settings configured for embedding model "model-B". -/
def modelBSettings : RAGSettings := { sampleSettings with embeddingModel := "model-B" }

/-- A chunk embedded under "model-A", stale relative to
`modelBSettings`. -/
def staleChunk : DocumentChunk := embChunk "n.md:0" "n.md" (some [1]) (some "model-A")

/-- Index holding only the stale-model chunk. -/
def staleModelIndex : VaultIndex := mkCorpus [staleChunk]

/-- Index holding one chunk without any embedding. -/
def noEmbeddingIndex : VaultIndex := mkCorpus [embChunk "n.md:0" "n.md" none none]

/-- Keys of a record are pairwise distinct; this always holds of an
actual JavaScript object. -/
def nodupKeys {α : Type} (r : Record α) : Prop := (r.map (·.1)).Nodup

instance {α : Type} (r : Record α) : Decidable (nodupKeys r) := by
  unfold nodupKeys; infer_instance

theorem statsConsistent_updateStats (idx : VaultIndex) : statsConsistent (updateStats idx) := by
  simp [statsConsistent, updateStats]

theorem statsConsistent_saveIndexPure (now : Nat) (idx : VaultIndex)
    (h : statsConsistent idx) : statsConsistent (saveIndexPure now idx) := h

theorem Record.get_erase {α : Type} (r : Record α) (k : String) :
    Record.get (Record.erase r k) k = none := by
  have h : List.find? (fun p => p.1 == k) (Record.erase r k) = none := by
    rw [List.find?_eq_none]
    intro p hp
    have h2 := (List.mem_filter.mp hp).2
    simpa using h2
  simp [Record.get, h]

theorem foldl_erase_eq_filter {α : Type} (keys : List String) (m : Record α) :
    keys.foldl (fun m k => Record.erase m k) m
      = m.filter (fun p => !(keys.any (fun k => p.1 == k))) := by
  induction keys generalizing m with
  | nil => simp
  | cons k ks ih =>
    rw [List.foldl_cons, ih]
    simp only [Record.erase, List.filter_filter]
    refine List.filter_congr ?_
    intro p hp
    simp [List.any_cons, Bool.not_or, Bool.and_comm]

theorem removeFileFromIndex_files (idx : VaultIndex) (P : String) (now : Nat) :
    (removeFileFromIndex idx P now).files = Record.erase idx.files P := rfl

theorem removeFileFromIndex_chunks (idx : VaultIndex) (P : String) (now : Nat) :
    (removeFileFromIndex idx P now).chunks
      = idx.chunks.filter (fun p =>
          !(((idx.chunks.filter (fun q => q.2.fileVersion.path == P)).map (·.1)).any
            (fun k => p.1 == k))) := by
  show ((idx.chunks.filter (fun q => q.2.fileVersion.path == P)).map (·.1)).foldl
      (fun m k => Record.erase m k) idx.chunks = _
  exact foldl_erase_eq_filter _ _

theorem length_filter_not {α : Type} (p : α → Bool) (l : List α) :
    (l.filter (fun a => !(p a))).length = l.length - l.countP p := by
  rw [← List.countP_eq_length_filter]
  have h := List.length_eq_countP_add_countP p l
  have h2 : l.countP (fun a => !(p a)) = l.countP (fun a => decide (¬ p a = true)) := by
    apply List.countP_congr
    intro a _
    simp
  omega

theorem countP_key_eq_ite {α : Type} (r : Record α) (hnd : nodupKeys r) (P : String) :
    r.countP (fun p => p.1 == P) = if (Record.get r P).isSome then 1 else 0 := by
  induction r with
  | nil => simp [Record.get]
  | cons a r ih =>
    have hcons := List.nodup_cons.mp hnd
    have hnd' : nodupKeys r := hcons.2
    by_cases hk : a.1 = P
    · have hzero : r.countP (fun p => p.1 == P) = 0 := by
        rw [List.countP_eq_zero]
        intro p hp hbeq
        have hmem : a.1 ∈ List.map (fun (x : String × α) => x.1) r := by
          have hpa : a.1 = p.1 := by rw [hk, eq_of_beq hbeq]
          rw [hpa]
          exact List.mem_map.mpr ⟨p, hp, rfl⟩
        exact hcons.1 hmem
      simp [List.countP_cons, Record.get, List.find?_cons, hk, hzero]
    · have hk' : (a.1 == P) = false := by simpa using hk
      simp only [List.countP_cons, hk', if_false, Nat.add_zero, ih hnd']
      have hskip : Record.get (a :: r) P = Record.get r P := by
        simp [Record.get, List.find?_cons, hk']
      rw [hskip]
      simp

theorem removeFileFromIndex_chunks_nodup (idx : VaultIndex) (P : String) (now : Nat)
    (hnd : nodupKeys idx.chunks) :
    (removeFileFromIndex idx P now).chunks
      = idx.chunks.filter (fun p => !(p.2.fileVersion.path == P)) := by
  rw [removeFileFromIndex_chunks]
  apply List.filter_congr
  intro p hp
  congr 1
  by_cases hmatch : p.2.fileVersion.path = P
  · have h1 : (p.2.fileVersion.path == P) = true := by simpa using hmatch
    rw [h1, List.any_eq_true]
    exact ⟨p.1, List.mem_map.mpr ⟨p, List.mem_filter.mpr ⟨hp, h1⟩, rfl⟩, by simp⟩
  · have h1 : (p.2.fileVersion.path == P) = false := by simpa using hmatch
    rw [h1, List.any_eq_false]
    intro x hx hbeq
    obtain ⟨q, hq, hqx⟩ := List.mem_map.mp hx
    have hqc := List.mem_filter.mp hq
    have : q = p := List.inj_on_of_nodup_map hnd hqc.1 hp (hqx.trans (eq_of_beq hbeq).symm)
    exact hmatch (by simpa [this ▸ hqc.2] using eq_of_beq (this ▸ hqc.2))

theorem removeFileFromIndex_path_removed (idx : VaultIndex) (P : String) (now : Nat) :
    ∀ p ∈ (removeFileFromIndex idx P now).chunks, p.2.fileVersion.path ≠ P := by
  intro p hp hpath
  rw [removeFileFromIndex_chunks] at hp
  have h2 := (List.mem_filter.mp hp).2
  have h1 := (List.mem_filter.mp hp).1
  have hone : (p.2.fileVersion.path == P) = true := by simpa using hpath
  have hkey : p.1 ∈ (idx.chunks.filter (fun q => q.2.fileVersion.path == P)).map (·.1) :=
    List.mem_map.mpr ⟨p, List.mem_filter.mpr ⟨h1, hone⟩, rfl⟩
  have hany : ((idx.chunks.filter (fun q => q.2.fileVersion.path == P)).map (·.1)).any
      (fun k => p.1 == k) = true :=
    List.any_eq_true.mpr ⟨p.1, hkey, by simp⟩
  rw [hany] at h2
  simp at h2

theorem Record.get_set {α : Type} (r : Record α) (k : String) (v : α) :
    Record.get (Record.set r k v) k = some v := by
  induction r with
  | nil => simp [Record.set, Record.get]
  | cons a r ih =>
    by_cases hk : a.1 = k
    · simp [Record.set, Record.get, hk]
    · have hk' : (a.1 == k) = false := by simpa using hk
      have hset : Record.set (a :: r) k v = a :: Record.set r k v := by
        by_cases hany : r.any (fun p => p.1 == k) = true
        · simp [Record.set, List.any_cons, hk', hany, hk]
        · have hany' : r.any (fun p => p.1 == k) = false := Bool.eq_false_iff.mpr hany
          simp [Record.set, List.any_cons, hk', hany', hk]
      rw [hset]
      have hskip : Record.get (a :: Record.set r k v) k = Record.get (Record.set r k v) k := by
        simp [Record.get, List.find?_cons, hk']
      rw [hskip]
      exact ih

theorem jsTrim_length_le (l : JStr) : (jsTrim l).length ≤ l.length := by
  unfold jsTrim
  have h1 := List.Sublist.length_le (@List.dropWhile_sublist Char l Char.isWhitespace)
  have h2 := List.Sublist.length_le
    (@List.dropWhile_sublist Char (List.dropWhile Char.isWhitespace l).reverse Char.isWhitespace)
  simp only [List.length_reverse] at h1 h2 ⊢
  omega

theorem jsTrim_eq_nil_of_whitespace (l : JStr) (h : ∀ c ∈ l, c.isWhitespace) :
    jsTrim l = [] := by
  unfold jsTrim
  have h1 : l.dropWhile Char.isWhitespace = [] := List.dropWhile_eq_nil_iff.mpr h
  simp [h1]

theorem splitOnSubAux_subset (sep : JStr) (fuel : Nat) :
    ∀ (l acc : JStr), ∀ p ∈ splitOnSubAux sep fuel l acc, ∀ c ∈ p, c ∈ l ∨ c ∈ acc := by
  induction fuel with
  | zero =>
    intro l acc p hp c hc
    cases l with
    | nil =>
      simp only [splitOnSubAux, List.mem_singleton] at hp
      subst hp
      right
      simpa using hc
    | cons a rest =>
      simp only [splitOnSubAux, List.mem_singleton] at hp
      subst hp
      rcases List.mem_append.mp hc with h | h
      · right
        simpa using h
      · left
        exact h
  | succ fuel ih =>
    intro l acc p hp c hc
    cases l with
    | nil =>
      simp only [splitOnSubAux, List.mem_singleton] at hp
      subst hp
      right
      simpa using hc
    | cons a rest =>
      simp only [splitOnSubAux] at hp
      by_cases hpre : sep.isPrefixOf (a :: rest) = true
      · rw [if_pos hpre] at hp
        rcases List.mem_cons.mp hp with hpe | hpr
        · subst hpe
          right
          simpa using hc
        · rcases ih ((a :: rest).drop sep.length) [] p hpr c hc with h | h
          · exact Or.inl (List.drop_subset _ _ h)
          · simp at h
      · rw [if_neg hpre] at hp
        rcases ih rest (a :: acc) p hp c hc with h | h
        · exact Or.inl (List.mem_cons_of_mem _ h)
        · rcases List.mem_cons.mp h with h | h
          · subst h
            exact Or.inl (List.mem_cons_self _ _)
          · exact Or.inr h

theorem paragraphsOf_whitespace (body : JStr) (h : ∀ c ∈ body, c.isWhitespace) :
    paragraphsOf body = [] := by
  unfold paragraphsOf splitOnSub
  have hsep : ('\n' :: '\n' :: [] : JStr) ≠ [] := by simp
  rw [if_neg hsep, List.filter_eq_nil_iff]
  intro p hp
  have hsub := splitOnSubAux_subset _ (body.length + 1) body [] p hp
  have hws : ∀ c ∈ p, c.isWhitespace := by
    intro c hc
    rcases hsub c hc with h1 | h1
    · exact h c h1
    · simp at h1
  simp [jsTrim_eq_nil_of_whitespace p hws]

theorem matchFrontmatter_whitespace (content : JStr) (h : ∀ c ∈ content, c.isWhitespace) :
    matchFrontmatter content = none := by
  have hfalse : (("---\n".data).isPrefixOf content) = false := by
    rw [Bool.eq_false_iff]
    intro htrue
    have hpre := List.isPrefixOf_iff_prefix.mp htrue
    have hmem : '-' ∈ content := hpre.subset (by decide)
    have hws := h '-' hmem
    exact absurd hws (by decide)
  simp [matchFrontmatter, hfalse]

theorem chunkDocument_whitespace (content : JStr) (path fname : String) (now : Nat)
    (h : ∀ c ∈ content, c.isWhitespace) :
    chunkDocument content path fname now = [] := by
  simp [chunkDocument, bodyOf, matchFrontmatter_whitespace content h,
    paragraphsOf_whitespace content h, chunkLoop, jsTrim]

theorem chunkLoop_content_bound (path fname : String) (tags : List JStr) (fm : Record JStr)
    (now chunkSize : Nat) (allParas : List JStr) :
    ∀ (ps : List JStr) (cur : JStr) (ci : Nat),
      (∀ p ∈ ps, p ∈ allParas) →
      (cur = [] ∨ cur.length ≤ chunkSize + 2 ∨ ∃ p ∈ allParas, cur = p) →
      ∀ d ∈ chunkLoop path fname tags fm now chunkSize ps cur ci,
        d.content.length ≤ chunkSize + 2 ∨ ∃ p ∈ allParas, d.content = jsTrim p := by
  intro ps
  induction ps with
  | nil =>
    intro cur ci _ hcur d hd
    simp only [chunkLoop] at hd
    by_cases hne : jsTrim cur ≠ []
    · rw [if_pos hne] at hd
      rcases List.mem_singleton.mp hd with rfl
      rcases hcur with rfl | hlen | ⟨p, hpm, hpe⟩
      · simp [jsTrim] at hne
      · exact Or.inl (le_trans (jsTrim_length_le cur) hlen)
      · exact Or.inr ⟨p, hpm, by rw [hpe]⟩
    · rw [if_neg hne] at hd
      simp at hd
  | cons q ps ih =>
    intro cur ci hsub hcur d hd
    simp only [chunkLoop] at hd
    by_cases hcond : chunkSize < cur.length + q.length ∧ 0 < cur.length
    · rw [if_pos hcond] at hd
      rcases List.mem_cons.mp hd with rfl | hd'
      · rcases hcur with rfl | hlen | ⟨p, hpm, hpe⟩
        · simp at hcond
        · exact Or.inl (le_trans (jsTrim_length_le cur) hlen)
        · exact Or.inr ⟨p, hpm, by rw [hpe]⟩
      · refine ih q (ci + 1) (fun p hp => hsub p (List.mem_cons_of_mem _ hp)) ?_ d hd'
        exact Or.inr (Or.inr ⟨q, hsub q (List.mem_cons_self _ _), rfl⟩)
    · rw [if_neg hcond] at hd
      refine ih _ ci (fun p hp => hsub p (List.mem_cons_of_mem _ hp)) ?_ d hd
      by_cases hnil : cur = []
      · rw [if_pos hnil]
        exact Or.inr (Or.inr ⟨q, hsub q (List.mem_cons_self _ _), rfl⟩)
      · rw [if_neg hnil]
        have hpos : 0 < cur.length := List.length_pos.mpr hnil
        have hle : cur.length + q.length ≤ chunkSize := by
          rcases Nat.lt_or_ge chunkSize (cur.length + q.length) with hlt | hge
          · exact absurd ⟨hlt, hpos⟩ hcond
          · exact hge
        refine Or.inr (Or.inl ?_)
        simp only [List.length_append, List.length_cons]
        omega

theorem chunkDocument_content_eq_loop (content : JStr) (path fname : String) (now : Nat) :
    ∀ d ∈ chunkDocument content path fname now,
      ∃ c ∈ chunkLoop path fname (extractTags (bodyOf content))
          (match matchFrontmatter content with
           | some (yaml, _) => parseFrontmatter yaml
           | none => []) now 1000 (paragraphsOf (bodyOf content)) [] 0,
        d.content = c.content := by
  intro d hd
  simp only [chunkDocument] at hd
  rw [List.mem_mapIdx] at hd
  obtain ⟨i, hi, heq⟩ := hd
  refine ⟨_, List.getElem_mem hi, ?_⟩
  rw [← heq]
  split <;> split <;> split <;> rfl

/-- C2: after every mutating operation on the index (remove a file, add
a file with its chunks, attach a chunk embedding, full rebuild — and
for completeness the freshly created empty index), the three derived
counters agree with the maps: `stats.totalChunks = |chunks|`,
`stats.totalEmbeddings = |chunks with non-null embedding|`, and
`stats.totalFiles = |files|`.  The embedding update is a no-op on an
unknown chunk id, so there the invariant is preserved rather than
re-established. -/
theorem stats_recomputed_after_mutations (s : RAGSettings) (idx : VaultIndex)
    (path : String) (mtime size : Nat) (content : JStr) (chunks : List DocumentChunk)
    (chunkId : String) (embedding : List ℚ) (now : Nat) :
    statsConsistent (createEmptyIndex s now) ∧
    statsConsistent (removeFileFromIndex idx path now) ∧
    statsConsistent (addFileToIndex idx path mtime size content chunks now) ∧
    (statsConsistent idx →
      statsConsistent (updateChunkEmbedding s idx chunkId embedding now)) ∧
    statsConsistent (rebuildIndex s now) := by
  refine ⟨by simp [statsConsistent, createEmptyIndex, Record.values], ?_, ?_, ?_, ?_⟩
  · exact statsConsistent_saveIndexPure now _ (statsConsistent_updateStats _)
  · exact statsConsistent_saveIndexPure now _ (statsConsistent_updateStats _)
  · intro h
    unfold updateChunkEmbedding
    cases Record.get idx.chunks chunkId with
    | some c => exact statsConsistent_saveIndexPure now _ (statsConsistent_updateStats _)
    | none => exact h
  · simp [statsConsistent, rebuildIndex, createEmptyIndex, saveIndexPure, Record.values]

/-- Witness for the stats-consistency theorem at concrete inputs
(the preservation hypothesis of the embedding update is discharged on
the empty index). -/
theorem stats_recomputed_after_mutations_witness :
    statsConsistent (createEmptyIndex sampleSettings 3) ∧
    statsConsistent (removeFileFromIndex (createEmptyIndex sampleSettings 3) "a.md" 4) ∧
    statsConsistent
      (addFileToIndex (createEmptyIndex sampleSettings 3) "a.md" 1 2 "hi".data [] 4) ∧
    (statsConsistent (createEmptyIndex sampleSettings 3) →
      statsConsistent
        (updateChunkEmbedding sampleSettings (createEmptyIndex sampleSettings 3) "a.md:0" [1] 4)) ∧
    statsConsistent (rebuildIndex sampleSettings 4) :=
  stats_recomputed_after_mutations sampleSettings (createEmptyIndex sampleSettings 3)
    "a.md" 1 2 "hi".data [] "a.md:0" [1] 4

/-- C4: after `removeFileFromIndex(P)` the files map has no entry for
`P` and no remaining chunk has `fileVersion.path = P`; with distinct
keys and consistent pre-stats, `totalFiles` and `totalChunks` drop by
exactly the number of removed entries; and on a never-indexed path the
operation leaves the maps and the stats unchanged. -/
theorem removeDocument_complete (idx : VaultIndex) (P : String) (now : Nat) :
    Record.get (removeFileFromIndex idx P now).files P = none ∧
    (∀ p ∈ (removeFileFromIndex idx P now).chunks, p.2.fileVersion.path ≠ P) ∧
    (nodupKeys idx.files → nodupKeys idx.chunks → statsConsistent idx →
      (removeFileFromIndex idx P now).stats.totalFiles
          = idx.stats.totalFiles - (if (Record.get idx.files P).isSome then 1 else 0) ∧
      (removeFileFromIndex idx P now).stats.totalChunks
          = idx.stats.totalChunks - idx.chunks.countP (fun p => p.2.fileVersion.path == P)) ∧
    (Record.get idx.files P = none →
      (∀ p ∈ idx.chunks, p.2.fileVersion.path ≠ P) →
      statsConsistent idx →
      (removeFileFromIndex idx P now).files = idx.files ∧
      (removeFileFromIndex idx P now).chunks = idx.chunks ∧
      (removeFileFromIndex idx P now).stats = idx.stats) := by
  refine ⟨Record.get_erase idx.files P, ?_, ?_, ?_⟩
  · intro p hp hpath
    rw [removeFileFromIndex_chunks] at hp
    have h2 := (List.mem_filter.mp hp).2
    have h1 := (List.mem_filter.mp hp).1
    have hone : (p.2.fileVersion.path == P) = true := by simpa using hpath
    have hkey : p.1 ∈ (idx.chunks.filter (fun q => q.2.fileVersion.path == P)).map (·.1) :=
      List.mem_map.mpr ⟨p, List.mem_filter.mpr ⟨h1, hone⟩, rfl⟩
    have hany : ((idx.chunks.filter (fun q => q.2.fileVersion.path == P)).map (·.1)).any
        (fun k => p.1 == k) = true :=
      List.any_eq_true.mpr ⟨p.1, hkey, by simp⟩
    rw [hany] at h2
    simp at h2
  · intro hndf hndc hcons
    obtain ⟨h1, h2, _⟩ := hcons
    constructor
    · show (Record.erase idx.files P).length = _
      rw [h1, ← countP_key_eq_ite idx.files hndf P]
      exact length_filter_not (fun p => p.1 == P) idx.files
    · show ((removeFileFromIndex idx P now).chunks).length = _
      rw [removeFileFromIndex_chunks_nodup idx P now hndc, h2]
      exact length_filter_not (fun p => p.2.fileVersion.path == P) idx.chunks
  · intro hget hnochunk hcons
    have hf : (removeFileFromIndex idx P now).files = idx.files := by
      rw [removeFileFromIndex_files]
      unfold Record.erase
      rw [List.filter_eq_self]
      intro p hp
      have : ¬ (p.1 == P) = true := by
        have hn := List.find?_eq_none.mp (Option.map_eq_none'.mp hget) p hp
        exact hn
      simpa using this
    have hkeys : idx.chunks.filter (fun q => q.2.fileVersion.path == P) = [] := by
      rw [List.filter_eq_nil_iff]
      intro p hp
      simpa using hnochunk p hp
    have hc : (removeFileFromIndex idx P now).chunks = idx.chunks := by
      rw [removeFileFromIndex_chunks, hkeys]
      rw [List.filter_eq_self]
      intro p hp
      simp
    refine ⟨hf, hc, ?_⟩
    obtain ⟨h1, h2, h3⟩ := hcons
    have hstats : (removeFileFromIndex idx P now).stats =
        { totalFiles := (removeFileFromIndex idx P now).files.length
          totalChunks := (removeFileFromIndex idx P now).chunks.length
          totalEmbeddings :=
            ((Record.values (removeFileFromIndex idx P now).chunks).filter
              (fun c => c.embedding.isSome)).length
          lastFullIndex := idx.stats.lastFullIndex } := rfl
    rw [hstats, hf, hc, ← h1, ← h2, ← h3]

/-- Witness for the deletion-completeness theorem: a concrete one-file
index and a never-indexed path, discharging all hypotheses. -/
theorem removeDocument_complete_witness :
    let idx := addFileToIndex (createEmptyIndex sampleSettings 3) "a.md" 1 2 "hi".data [] 4
    Record.get (removeFileFromIndex idx "gone.md" 5).files "gone.md" = none ∧
    (removeFileFromIndex idx "gone.md" 5).stats.totalFiles
        = idx.stats.totalFiles - (if (Record.get idx.files "gone.md").isSome then 1 else 0) ∧
    (removeFileFromIndex idx "gone.md" 5).files = idx.files ∧
    (removeFileFromIndex idx "gone.md" 5).chunks = idx.chunks ∧
    (removeFileFromIndex idx "gone.md" 5).stats = idx.stats := by
  intro idx
  have h := removeDocument_complete idx "gone.md" 5
  have hnodup1 : nodupKeys idx.files := by decide
  have hnodup2 : nodupKeys idx.chunks := by decide
  have hcons : statsConsistent idx := by decide
  have hget : Record.get idx.files "gone.md" = none := by decide
  have hnochunk : ∀ p ∈ idx.chunks, p.2.fileVersion.path ≠ "gone.md" := by decide
  refine ⟨h.1, (h.2.2.1 hnodup1 hnodup2 hcons).1, h.2.2.2 hget hnochunk hcons⟩

/-- C9: whichever way `loadIndex` completes — missing file, unreadable
file, or a parsed index that is then validated (rebuilt or not) — the
resulting in-memory index's `settings.embeddingModel` equals the
currently configured embedding model. -/
theorem loadIndex_settings_embeddingModel (s : RAGSettings) (now : Nat) (a : LoadAttempt) :
    (loadIndex s now a).settings.embeddingModel = s.embeddingModel := by
  cases a with
  | missing => rfl
  | unreadable => rfl
  | parsed idx =>
    by_cases hm : idx.settings.embeddingModel = s.embeddingModel <;>
      by_cases he : 0 < idx.stats.totalEmbeddings <;>
        by_cases hversion : idx.version = "1.0.0" <;>
          simp [loadIndex, validateIndex, hm, he, hversion, rebuildIndex, createEmptyIndex,
            saveIndexPure]

/-- C1 (counterexample): the claim's "if and only if" fails, because a
format-version mismatch also rebuilds the index from empty.  Here the
stored embedding model equals the configured one (and there are zero
embeddings), so the claim asserts no clearing happens, yet `load()` of
the version-0.9.0 index clears the non-empty `files` map. -/
theorem load_rebuild_iff_counterexample :
    staleVersionIndex.settings.embeddingModel = sampleSettings.embeddingModel ∧
    staleVersionIndex.files ≠ [] ∧
    (loadIndex sampleSettings 5 (.parsed staleVersionIndex)).files = [] := by
  decide

/-- C1 (amended): for a stored index whose format version is the
supported "1.0.0", the index is cleared and rebuilt from empty (files
and chunks cleared, stats reset to zero, `lastFullIndex` stamped) if
and only if the stored `settings.embeddingModel` differs from the
configured one and at least one embedding exists; in every other case
`files`, `chunks` and `stats` are kept and the index adopts the
configured model name. -/
theorem load_rebuilds_iff_model_changed_with_embeddings
    (s : RAGSettings) (now : Nat) (idx : VaultIndex) (hv : idx.version = "1.0.0") :
    (idx.settings.embeddingModel ≠ s.embeddingModel ∧ 0 < idx.stats.totalEmbeddings →
      (loadIndex s now (.parsed idx)).files = [] ∧
      (loadIndex s now (.parsed idx)).chunks = [] ∧
      (loadIndex s now (.parsed idx)).stats =
        { totalFiles := 0, totalChunks := 0, totalEmbeddings := 0, lastFullIndex := now }) ∧
    ((idx.settings.embeddingModel = s.embeddingModel ∨ idx.stats.totalEmbeddings = 0) →
      (loadIndex s now (.parsed idx)).files = idx.files ∧
      (loadIndex s now (.parsed idx)).chunks = idx.chunks ∧
      (loadIndex s now (.parsed idx)).stats = idx.stats ∧
      (loadIndex s now (.parsed idx)).settings.embeddingModel = s.embeddingModel) := by
  have hneeds : (idx.version != "1.0.0") = false := by simp [hv]
  constructor
  · intro h
    have h1 : (decide (0 < idx.stats.totalEmbeddings) &&
        (idx.settings.embeddingModel != s.embeddingModel)) = true := by
      simp [h.1, h.2]
    simp [loadIndex, validateIndex, h1, rebuildIndex, createEmptyIndex, saveIndexPure]
  · intro h
    rcases h with hm | hz
    · by_cases he : 0 < idx.stats.totalEmbeddings
      · simp [loadIndex, validateIndex, hm, he, hv]
      · simp [loadIndex, validateIndex, hm, he, hv]
    · have he : ¬ 0 < idx.stats.totalEmbeddings := by omega
      simp [loadIndex, validateIndex, hz, he, hv]

/-- Witness for the amended C1 theorem at a concrete rebuild-triggering
index (model changed from "model-A" to "model-B" with one embedding
present) discharging its hypotheses. -/
theorem load_rebuilds_iff_model_changed_with_embeddings_witness :
    let s := { sampleSettings with embeddingModel := "model-B" }
    let c : DocumentChunk :=
      { id := "note.md:0"
        fileVersion := { path := "note.md", mtime := 1, size := 2, hash := "h" }
        content := "hello".data
        metadata :=
          { file := "note.md", path := "note.md", tags := [], frontmatter := [],
            chunkIndex := 0, totalChunks := 1 }
        embedding := some [1]
        embeddingModel := some "model-A"
        createdAt := 0
        updatedAt := 0 }
    let idx : VaultIndex :=
      { version := "1.0.0"
        createdAt := 0
        updatedAt := 0
        settings := { embeddingModel := "model-A", chunkSize := 1000, chunkOverlap := 200 }
        files := [("note.md", { path := "note.md", mtime := 1, size := 2, hash := "h" })]
        chunks := [("note.md:0", c)]
        stats := { totalFiles := 1, totalChunks := 1, totalEmbeddings := 1, lastFullIndex := 0 } }
    (loadIndex s 9 (.parsed idx)).files = [] ∧
    (loadIndex s 9 (.parsed idx)).chunks = [] ∧
    (loadIndex s 9 (.parsed idx)).stats =
      { totalFiles := 0, totalChunks := 0, totalEmbeddings := 0, lastFullIndex := 9 } := by
  intro s c idx
  exact ((load_rebuilds_iff_model_changed_with_embeddings s 9 idx rfl).1
    ⟨by decide, by decide⟩)

set_option maxRecDepth 100000 in
/-- C5 (counterexample): a document of two 500-character paragraphs is
chunked into a single chunk of 1002 characters — the greedy size check
compares `currentChunk.length + paragraph.length` against `chunkSize`
and does not count the two-character blank-line joiner — so a chunk
exceeds chunkSize = 1000 even though no paragraph of the document
exceeds 1000, hence it is not a single over-long paragraph and the
claimed exception cannot apply. -/
theorem chunk_size_bound_counterexample :
    (paragraphsOf (bodyOf bigTwoParagraphDoc)).map List.length = [500, 500] ∧
    (chunkDocument bigTwoParagraphDoc "f.md" "f.md" 0).map (fun d => d.content.length)
      = [1002] ∧
    1000 < 1002 := by
  refine ⟨by decide, by decide, by decide⟩

/-- C5 (amended): every chunk the chunker produces either has content
of length at most chunkSize + 2 = 1002 (the two extra characters are
the blank-line joiner the size check ignores), or consists of a single
whole (trimmed) paragraph, which is kept regardless of its length —
chunking never splits inside a paragraph. -/
theorem chunk_size_bound (content : JStr) (path fname : String) (now : Nat) :
    ∀ d ∈ chunkDocument content path fname now,
      d.content.length ≤ 1002 ∨
        ∃ p ∈ paragraphsOf (bodyOf content), d.content = jsTrim p := by
  intro d hd
  obtain ⟨c, hc, hce⟩ := chunkDocument_content_eq_loop content path fname now d hd
  have hb := chunkLoop_content_bound path fname (extractTags (bodyOf content))
    (match matchFrontmatter content with
     | some (yaml, _) => parseFrontmatter yaml
     | none => []) now 1000
    (paragraphsOf (bodyOf content)) (paragraphsOf (bodyOf content)) [] 0
    (fun _ hp => hp) (Or.inl rfl) c hc
  rw [hce]
  exact hb

/-- Witness for the chunk-size bound at a concrete document and chunk,
discharging the membership hypothesis. -/
theorem chunk_size_bound_witness :
    sampleDraft ∈ chunkDocument ("aaa\n\nbbb".data) "f.md" "f.md" 7 ∧
    (sampleDraft.content.length ≤ 1002 ∨
      ∃ p ∈ paragraphsOf (bodyOf ("aaa\n\nbbb".data)), sampleDraft.content = jsTrim p) :=
  ⟨by decide, chunk_size_bound ("aaa\n\nbbb".data) "f.md" "f.md" 7 sampleDraft (by decide)⟩

/-- C10: a document whose content has no non-whitespace character
yields zero chunks from the chunker; adding the document with that
empty chunk list still records its fresh fingerprint in the files map,
so it is subsequently reported up to date while no chunk in the index
carries its path. -/
theorem empty_document_indexing (idx : VaultIndex) (content : JStr) (path fname : String)
    (mtime size now : Nat) (hws : ∀ c ∈ content, c.isWhitespace) :
    chunkDocument content path fname now = [] ∧
    Record.get (addFileToIndex idx path mtime size content
        ((chunkDocument content path fname now).map (draftToDocumentChunk path)) now).files path
      = some (getFileVersion path mtime size content) ∧
    isFileUpToDate (addFileToIndex idx path mtime size content
        ((chunkDocument content path fname now).map (draftToDocumentChunk path)) now)
        path mtime size content = true ∧
    ∀ p ∈ (addFileToIndex idx path mtime size content
        ((chunkDocument content path fname now).map (draftToDocumentChunk path)) now).chunks,
      p.2.fileVersion.path ≠ path := by
  have hzero := chunkDocument_whitespace content path fname now hws
  have hget : Record.get (addFileToIndex idx path mtime size content
      ((chunkDocument content path fname now).map (draftToDocumentChunk path)) now).files path
      = some (getFileVersion path mtime size content) := by
    simp only [hzero, List.map_nil]
    exact Record.get_set _ _ _
  refine ⟨hzero, hget, ?_, ?_⟩
  · simp [isFileUpToDate, hget]
  · simp only [hzero, List.map_nil]
    intro p hp
    exact removeFileFromIndex_path_removed idx path now p hp

/-- Witness for the empty-document theorem at a concrete whitespace
document on a concrete index, discharging the whitespace hypothesis. -/
theorem empty_document_indexing_witness :
    chunkDocument ("  \n\n \n ".data) "a.md" "a.md" 5 = [] ∧
    Record.get (addFileToIndex (createEmptyIndex sampleSettings 3) "a.md" 1 2 ("  \n\n \n ".data)
        ((chunkDocument ("  \n\n \n ".data) "a.md" "a.md" 5).map (draftToDocumentChunk "a.md"))
        5).files "a.md"
      = some (getFileVersion "a.md" 1 2 ("  \n\n \n ".data)) ∧
    isFileUpToDate (addFileToIndex (createEmptyIndex sampleSettings 3) "a.md" 1 2
        ("  \n\n \n ".data)
        ((chunkDocument ("  \n\n \n ".data) "a.md" "a.md" 5).map (draftToDocumentChunk "a.md"))
        5) "a.md" 1 2 ("  \n\n \n ".data) = true := by
  have h := empty_document_indexing (createEmptyIndex sampleSettings 3) ("  \n\n \n ".data)
    "a.md" "a.md" 1 2 5 (by decide)
  exact ⟨h.1, h.2.1, h.2.2.1⟩

theorem insertSorted_perm {α : Type} (le : α → α → Bool) (a : α) (l : List α) :
    (insertSorted le a l).Perm (a :: l) := by
  induction l with
  | nil => exact List.Perm.refl _
  | cons b l ih =>
    simp only [insertSorted]
    split
    · exact List.Perm.refl _
    · exact (List.Perm.cons b ih).trans (List.Perm.swap a b l)

theorem stableSort_perm {α : Type} (le : α → α → Bool) (l : List α) :
    (stableSort le l).Perm l := by
  induction l with
  | nil => exact List.Perm.refl _
  | cons a l ih => exact (insertSorted_perm le a (stableSort le l)).trans (List.Perm.cons a ih)

theorem insertSorted_pairwise {α : Type} (le : α → α → Bool)
    (htrans : ∀ a b c, le a b = true → le b c = true → le a c = true)
    (htot : ∀ a b, le a b = true ∨ le b a = true)
    (a : α) (l : List α) (hl : l.Pairwise (fun x y => le x y = true)) :
    (insertSorted le a l).Pairwise (fun x y => le x y = true) := by
  induction l with
  | nil => simp [insertSorted]
  | cons b l ih =>
    rw [List.pairwise_cons] at hl
    simp only [insertSorted]
    by_cases h : le a b = true
    · rw [if_pos h]
      refine List.pairwise_cons.mpr ⟨?_, List.pairwise_cons.mpr hl⟩
      intro y hy
      rcases List.mem_cons.mp hy with rfl | hy'
      · exact h
      · exact htrans a b y h (hl.1 y hy')
    · rw [if_neg h]
      refine List.pairwise_cons.mpr ⟨?_, ih hl.2⟩
      intro y hy
      have hy' := (insertSorted_perm le a l).mem_iff.mp hy
      rcases List.mem_cons.mp hy' with rfl | hy''
      · rcases htot y b with hh | hh
        · exact absurd hh h
        · exact hh
      · exact hl.1 y hy''

theorem stableSort_pairwise {α : Type} (le : α → α → Bool)
    (htrans : ∀ a b c, le a b = true → le b c = true → le a c = true)
    (htot : ∀ a b, le a b = true ∨ le b a = true) (l : List α) :
    (stableSort le l).Pairwise (fun x y => le x y = true) := by
  induction l with
  | nil => simp [stableSort]
  | cons a l ih => exact insertSorted_pairwise le htrans htot a _ ih

theorem simTrans : ∀ a b c : SearchResult,
    decide (b.similarity ≤ a.similarity) = true →
    decide (c.similarity ≤ b.similarity) = true →
    decide (c.similarity ≤ a.similarity) = true := by
  intro a b c h1 h2
  simp only [decide_eq_true_eq] at h1 h2 ⊢
  exact le_trans h2 h1

theorem simTotal : ∀ a b : SearchResult,
    decide (b.similarity ≤ a.similarity) = true ∨
    decide (a.similarity ≤ b.similarity) = true := by
  intro a b
  simp only [decide_eq_true_eq]
  exact le_total _ _

theorem mem_searchCandidates (sqrt : ℚ → ℚ) (s : RAGSettings) (idx : VaultIndex)
    (qe : List ℚ) (ctx : Option String) (r : SearchResult)
    (hr : r ∈ searchCandidates sqrt s idx qe ctx) :
    r.chunk ∈ getChunksWithEmbeddings idx ∧
    ∃ e, r.chunk.embedding = some e ∧
      r.similarity = (if ctx == some r.chunk.metadata.path
        then cosineSimilarity sqrt qe e * (6/5) else cosineSimilarity sqrt qe e) ∧
      s.similarityThreshold ≤ r.similarity := by
  unfold searchCandidates at hr
  rw [List.mem_filterMap] at hr
  obtain ⟨chunk, hmem, hf⟩ := hr
  cases he : chunk.embedding with
  | none =>
    rw [he] at hf
    simp at hf
  | some e =>
    rw [he] at hf
    dsimp only at hf
    split at hf <;> rename_i hctx
    · split at hf <;> rename_i hth
      · obtain rfl := Option.some.inj hf
        refine ⟨hmem, e, he, ?_, hth⟩
        dsimp only
        rw [if_pos hctx]
      · simp at hf
    · split at hf <;> rename_i hth
      · obtain rfl := Option.some.inj hf
        refine ⟨hmem, e, he, ?_, hth⟩
        dsimp only
        rw [if_neg hctx]
      · simp at hf

theorem search_ok (sqrt : ℚ → ℚ) (s : RAGSettings) (idx : VaultIndex) (qe : List ℚ)
    (ctx : Option String) (res : List SearchResult)
    (h : search sqrt s idx qe ctx = .ok res) :
    res = (stableSort (fun a b => decide (b.similarity ≤ a.similarity))
      (searchCandidates sqrt s idx qe ctx)).take s.maxResults := by
  unfold search at h
  split at h
  · exact absurd h (by simp)
  · exact (Except.ok.inj h).symm

theorem mem_of_search_ok (sqrt : ℚ → ℚ) (s : RAGSettings) (idx : VaultIndex) (qe : List ℚ)
    (ctx : Option String) (res : List SearchResult)
    (h : search sqrt s idx qe ctx = .ok res) :
    ∀ r ∈ res, r ∈ searchCandidates sqrt s idx qe ctx := by
  intro r hr
  rw [search_ok sqrt s idx qe ctx res h] at hr
  exact (stableSort_perm _ _).mem_iff.mp (List.mem_of_mem_take hr)

/-- C6: for every query embedding, corpus, threshold and maxResults, a
successful search includes a result only if its (possibly boosted)
similarity reaches the threshold, returns the results sorted in
descending order of similarity, and returns at most `maxResults`
results; and when exactly 2 candidates pass the threshold while
`maxResults = 5`, exactly 2 results come back. -/
theorem search_results_spec (sqrt : ℚ → ℚ) (s : RAGSettings) (idx : VaultIndex)
    (qe : List ℚ) (ctx : Option String) (res : List SearchResult)
    (h : search sqrt s idx qe ctx = .ok res) :
    (∀ r ∈ res, s.similarityThreshold ≤ r.similarity) ∧
    res.Pairwise (fun a b => b.similarity ≤ a.similarity) ∧
    res.length ≤ s.maxResults ∧
    ((searchCandidates sqrt s idx qe ctx).length = 2 → s.maxResults = 5 →
      res.length = 2) := by
  refine ⟨?_, ?_, ?_, ?_⟩
  · intro r hr
    obtain ⟨-, e, -, -, hth⟩ :=
      mem_searchCandidates sqrt s idx qe ctx r (mem_of_search_ok sqrt s idx qe ctx res h r hr)
    exact hth
  · rw [search_ok sqrt s idx qe ctx res h]
    have hsorted := stableSort_pairwise (fun (a b : SearchResult) =>
      decide (b.similarity ≤ a.similarity)) simTrans simTotal
      (searchCandidates sqrt s idx qe ctx)
    have htake := hsorted.sublist (List.take_sublist s.maxResults _)
    exact htake.imp (fun hab => of_decide_eq_true hab)
  · rw [search_ok sqrt s idx qe ctx res h, List.length_take]
    exact min_le_left _ _
  · intro hc hm
    rw [search_ok sqrt s idx qe ctx res h, List.length_take, (stableSort_perm _ _).length_eq,
      hc, hm]
    rfl

/-- Witness for the search-results theorem: on the concrete three-chunk
corpus with the default threshold 0.3 and maxResults 5, exactly the two
above-threshold chunks come back, sorted descending. -/
theorem search_results_spec_witness :
    (∀ r ∈ searchResults6, sampleSettings.similarityThreshold ≤ r.similarity) ∧
    searchResults6.Pairwise (fun a b => b.similarity ≤ a.similarity) ∧
    searchResults6.length ≤ sampleSettings.maxResults ∧
    searchResults6.length = 2 := by
  have h := search_results_spec id sampleSettings corpus6 [1, 0] none searchResults6
    (by with_unfolding_all decide)
  exact ⟨h.1, h.2.1, h.2.2.1, h.2.2.2 (by with_unfolding_all decide) (by decide)⟩

/-- C7: when no stored chunk has an embedding, search fails with the
EmptyCorpus error — the result is this error for every possible query
embedding, i.e. it is produced without consulting the embedding
provider — instead of returning an empty result list. -/
theorem search_empty_corpus_error (sqrt : ℚ → ℚ) (s : RAGSettings) (idx : VaultIndex)
    (ctx : Option String) (h : ∀ p ∈ idx.chunks, p.2.embedding = none) :
    ∀ qe : List ℚ,
      search sqrt s idx qe ctx = .error "No embeddings found. Please run indexing first." := by
  intro qe
  have hz : getChunksWithEmbeddings idx = [] := by
    unfold getChunksWithEmbeddings Record.values
    rw [List.filter_eq_nil_iff]
    intro c hc
    obtain ⟨p, hp, rfl⟩ := List.mem_map.mp hc
    simp [h p hp]
  unfold search
  rw [hz]
  simp

/-- Witness for the empty-corpus theorem on a concrete index holding a
single chunk without embedding. -/
theorem search_empty_corpus_error_witness :
    search id sampleSettings noEmbeddingIndex [1] none
      = .error "No embeddings found. Please run indexing first." :=
  search_empty_corpus_error id sampleSettings noEmbeddingIndex none (by decide) [1]

/-- C3 (counterexample): search performs no `embeddingModel` check — a
chunk embedded under "model-A" while the configuration says "model-B"
is still considered and returned. -/
theorem search_model_filter_counterexample :
    staleChunk.embeddingModel ≠ some modelBSettings.embeddingModel ∧
    search id modelBSettings staleModelIndex [1] none
      = .ok [{ chunk := staleChunk, similarity := 1 }] :=
  ⟨by decide, by with_unfolding_all decide⟩

/-- C3 (amended): the set of chunks search considers is exactly the
chunks with a non-null embedding — membership is independent of
`embeddingModel` — and every returned result is drawn from that set;
staleness is handled only by the load-time rebuild, not by search-time
filtering. -/
theorem search_considers_embedded_only (sqrt : ℚ → ℚ) (s : RAGSettings) (idx : VaultIndex)
    (qe : List ℚ) (ctx : Option String) (res : List SearchResult)
    (h : search sqrt s idx qe ctx = .ok res) :
    (∀ c, c ∈ getChunksWithEmbeddings idx ↔
      c ∈ Record.values idx.chunks ∧ c.embedding.isSome) ∧
    ∀ r ∈ res, r.chunk ∈ Record.values idx.chunks ∧ r.chunk.embedding.isSome := by
  constructor
  · intro c
    unfold getChunksWithEmbeddings
    exact List.mem_filter
  · intro r hr
    have hc := (mem_searchCandidates sqrt s idx qe ctx r
      (mem_of_search_ok sqrt s idx qe ctx res h r hr)).1
    exact List.mem_filter.mp hc

/-- Witness for the amended search-consideration theorem on the
concrete three-chunk corpus. -/
theorem search_considers_embedded_only_witness :
    (∀ c, c ∈ getChunksWithEmbeddings corpus6 ↔
      c ∈ Record.values corpus6.chunks ∧ c.embedding.isSome) ∧
    ∀ r ∈ searchResults6, r.chunk ∈ Record.values corpus6.chunks ∧ r.chunk.embedding.isSome :=
  search_considers_embedded_only id sampleSettings corpus6 [1, 0] none searchResults6
    (by with_unfolding_all decide)

/-- C8 (counterexample): with threshold 0 — reachable on the settings
slider — and two chunks orthogonal to the query, both of raw
similarity 0, both pass thresholding, the 1.2 boost leaves the context
chunk's 0 unchanged, and the stable sort keeps the non-context chunk
(iterated first) ranked above the context chunk, so equal raw
similarity does not put the context chunk at or above the other. -/
theorem boost_monotonicity_counterexample :
    (corpus8.chunks.map (fun p => cosineSimilarity id [1, 0]
      (p.2.embedding.getD []))) = [0, 0] ∧
    search id thresholdZeroSettings corpus8 [1, 0] (some "b.md")
      = .ok [{ chunk := embChunk "a.md:0" "a.md" (some [0, 1]) (some "text-embedding-3-small"),
               similarity := 0 },
             { chunk := embChunk "b.md:0" "b.md" (some [0, 1]) (some "text-embedding-3-small"),
               similarity := 0 }] ∧
    "a.md" ≠ "b.md" :=
  ⟨by with_unfolding_all decide, by with_unfolding_all decide, by decide⟩

/-- C8 (amended): for two results of equal positive raw cosine
similarity, the one from the context file — whose stored similarity is
the raw value multiplied by the fixed factor 1.2 before the threshold
check — is ranked strictly above the non-context one.  (For raw
similarity ≤ 0 the boost does not raise the score and the stable sort
can rank the context chunk below, as the counterexample shows.) -/
theorem boost_monotonicity (sqrt : ℚ → ℚ) (s : RAGSettings) (idx : VaultIndex)
    (qe : List ℚ) (ctxPath : String) (res : List SearchResult)
    (h : search sqrt s idx qe (some ctxPath) = .ok res)
    (i j : Fin res.length) (sim : ℚ) (hpos : 0 < sim) (ei ej : List ℚ)
    (hei : (res.get i).chunk.embedding = some ei)
    (hej : (res.get j).chunk.embedding = some ej)
    (hsi : cosineSimilarity sqrt qe ei = sim)
    (hsj : cosineSimilarity sqrt qe ej = sim)
    (hctx : (res.get i).chunk.metadata.path = ctxPath)
    (hnctx : (res.get j).chunk.metadata.path ≠ ctxPath) :
    (res.get i).similarity = sim * (6/5) ∧
    (res.get j).similarity = sim ∧
    s.similarityThreshold ≤ (res.get i).similarity ∧
    i < j := by
  obtain ⟨-, e, hee, hsimi, hthi⟩ := mem_searchCandidates sqrt s idx qe (some ctxPath)
    (res.get i) (mem_of_search_ok sqrt s idx qe (some ctxPath) res h _
      (List.get_mem res i.1 i.2))
  obtain rfl := Option.some.inj (hee.symm.trans hei)
  have hcondi : (some ctxPath == some (res.get i).chunk.metadata.path) = true := by
    simp
    exact hctx.symm
  rw [hcondi] at hsimi
  rw [if_pos rfl] at hsimi
  rw [hsi] at hsimi
  obtain ⟨-, e', hee', hsimj, -⟩ := mem_searchCandidates sqrt s idx qe (some ctxPath)
    (res.get j) (mem_of_search_ok sqrt s idx qe (some ctxPath) res h _
      (List.get_mem res j.1 j.2))
  obtain rfl := Option.some.inj (hee'.symm.trans hej)
  have hcondj : (some ctxPath == some (res.get j).chunk.metadata.path) = false := by
    simp
    exact fun hcp => hnctx hcp.symm
  rw [hcondj] at hsimj
  rw [if_neg (by simp)] at hsimj
  rw [hsj] at hsimj
  have hsorted : res.Pairwise (fun a b => b.similarity ≤ a.similarity) := by
    rw [search_ok sqrt s idx qe (some ctxPath) res h]
    exact (List.Pairwise.sublist (List.take_sublist _ _)
      (stableSort_pairwise _ simTrans simTotal _)).imp (fun hab => of_decide_eq_true hab)
  refine ⟨hsimi, hsimj, hsimi ▸ hthi, ?_⟩
  by_contra hle
  push_neg at hle
  have hne : j ≠ i := by
    intro he
    rw [he] at hnctx
    exact hnctx hctx
  have hji : j < i := lt_of_le_of_ne hle hne
  have hpair := (List.pairwise_iff_get.mp hsorted) j i hji
  rw [hsimi, hsimj] at hpair
  linarith

/-- Witness for the boost-monotonicity theorem on the concrete
two-chunk corpus with equal raw similarity 1 and context file `b.md`:
the boosted context chunk is ranked first. -/
theorem boost_monotonicity_witness :
    (searchResultsBoost.get ⟨0, by decide⟩).similarity = 1 * (6/5) ∧
    (searchResultsBoost.get ⟨1, by decide⟩).similarity = 1 ∧
    sampleSettings.similarityThreshold ≤ (searchResultsBoost.get ⟨0, by decide⟩).similarity ∧
    (⟨0, by decide⟩ : Fin searchResultsBoost.length) < ⟨1, by decide⟩ :=
  boost_monotonicity id sampleSettings corpusBoost [1, 0] "b.md" searchResultsBoost
    (by with_unfolding_all decide) ⟨0, by decide⟩ ⟨1, by decide⟩ 1 (by decide) [1, 0] [1, 0]
    (by decide) (by decide) (by with_unfolding_all decide) (by with_unfolding_all decide)
    (by decide) (by decide)

end ObsidiAnswer
